import Mathlib

/-!
Verification of the TOKTUNE lyrics player (`play.py`).

The program is shallowly embedded: Python strings become `List Char`,
Python floats become `ℚ` (exact rational arithmetic; the source relies on
IEEE doubles, whose rounding is immaterial to the properties below), and
fallible parsing returns `Option`.  Each definition is transcribed from the
function of the same name in `play.py`.
-/

/-- Convert a Lean string literal to the `List Char` representation used
throughout this development. -/
def s2l (s : String) : List Char := s.data

/-- The whitespace characters stripped by Python's `str.strip()`. -/
def pyIsSpace (c : Char) : Bool :=
  c == ' ' || c == '\t' || c == '\n' || c == '\r' || c == '\x0b' || c == '\x0c'

/-- Strip characters satisfying `p` from both ends, as Python `str.strip` does. -/
def pyStripP (p : Char → Bool) (l : List Char) : List Char :=
  List.rdropWhile p (List.dropWhile p l)

/-- Python `line.strip()`. -/
def pyStrip (l : List Char) : List Char := pyStripP pyIsSpace l

/-- Python `t.strip("[]")` as used by `lrc_time_to_seconds`. -/
def stripBrackets (l : List Char) : List Char :=
  pyStripP (fun c => c == '[' || c == ']') l

/-- Python `str.split(sep)` for a single-character separator (keeps empty parts). -/
def splitOnChar (sep : Char) : List Char → List (List Char)
  | [] => [[]]
  | c :: rest =>
    if c = sep then
      [] :: splitOnChar sep rest
    else
      match splitOnChar sep rest with
      | [] => [[c]]
      | h :: t => (c :: h) :: t

/-- Helper for `pySplit`: accumulates the current word (reversed). -/
def pySplitAux : List Char → List Char → List (List Char)
  | [], cur => if cur.isEmpty then [] else [cur.reverse]
  | c :: rest, cur =>
    if pyIsSpace c then
      if cur.isEmpty then pySplitAux rest [] else cur.reverse :: pySplitAux rest []
    else
      pySplitAux rest (c :: cur)

/-- Python `str.split()` with no argument: split on whitespace runs, dropping
empty pieces (used by `export_json` on `caption["text"]`). -/
def pySplit (l : List Char) : List (List Char) := pySplitAux l []

/-- Python `str.lower()` (ASCII case folding suffices for genre keys). -/
def pyLower (l : List Char) : List Char := l.map Char.toLower

/-- Numeric value of a decimal digit string (leading zeros allowed). -/
def digitsVal (l : List Char) : ℕ :=
  l.foldl (fun a c => 10 * a + (c.toNat - 48)) 0

/-- Python `int(s)` restricted to the plain digit strings the program feeds it
(LRC timestamp fields); malformed input raises in Python, here `none`. -/
def pyParseNat (l : List Char) : Option ℕ :=
  if !l.isEmpty && l.all Char.isDigit then some (digitsVal l) else none

/-- The decimal digit character for `d` (callers only pass `d < 10`). -/
def digitChar (d : ℕ) : Char :=
  match d with
  | 0 => '0' | 1 => '1' | 2 => '2' | 3 => '3' | 4 => '4'
  | 5 => '5' | 6 => '6' | 7 => '7' | 8 => '8' | _ => '9'

/-- Fuelled decimal digit expansion of a natural number (most significant first). -/
def natDigitsAux : ℕ → ℕ → List Char
  | 0, _ => []
  | f + 1, n =>
    if n < 10 then [digitChar n]
    else natDigitsAux f (n / 10) ++ [digitChar (n % 10)]

/-- Decimal digit string of `n`, as Python `"%d" % n` renders it. -/
def natDigits (n : ℕ) : List Char := natDigitsAux (n + 1) n

/-- Python's `"{:02d}"` padding: left-pad with `'0'` to width two. -/
def pad2 (l : List Char) : List Char := List.replicate (2 - l.length) '0' ++ l

/-- Python `float(t)` restricted to the plain `digits[.digits]` forms the
program feeds it; other inputs raise in Python, here `none`. -/
def pyParseFloat (l : List Char) : Option ℚ :=
  match splitOnChar '.' l with
  | [a] => (pyParseNat a).map (fun n => (n : ℚ))
  | [a, b] =>
    match pyParseNat a, pyParseNat b with
    | some x, some y => some ((x : ℚ) + (y : ℚ) / (10 : ℚ) ^ b.length)
    | _, _ => none
  | _ => none

/-- Python `int(q)` on a float: truncation toward zero. -/
def pyInt (q : ℚ) : ℤ := if q < 0 then ⌈q⌉ else ⌊q⌋

/-- Python `a % b` on floats (`b ≠ 0`): remainder of floor division. -/
def pyMod (a b : ℚ) : ℚ := a - b * ⌊a / b⌋

/-- Python `round(q)` to an integer: round half to even. -/
def roundHalfEven (q : ℚ) : ℤ :=
  let f := ⌊q⌋
  let r := q - f
  if r < 1 / 2 then f
  else if 1 / 2 < r then f + 1
  else if f % 2 = 0 then f else f + 1

/-- The `(minutes, seconds, centiseconds)` triple computed by
`seconds_to_lrc_time` (`play.py` lines 186-203), including the negative-input
clamp and the centisecond/second rollover. -/
def lrcTriple (sec0 : ℚ) : ℤ × ℤ × ℤ :=
  let sec := if sec0 < 0 then 0 else sec0
  let minutes := ⌊sec / 60⌋
  let seconds := pyInt (pyMod sec 60)
  let centis := roundHalfEven ((sec - (pyInt sec : ℚ)) * 100)
  if centis = 100 then
    if seconds + 1 = 60 then (minutes + 1, 0, 0)
    else (minutes, seconds + 1, 0)
  else (minutes, seconds, centis)

/-- Rendering of the triple as `f"{minutes:02d}:{seconds:02d}.{centiseconds:02d}"`
(all three components are nonnegative after the clamp in `lrcTriple`). -/
def formatTriple : ℤ × ℤ × ℤ → List Char
  | (m, s, cs) =>
    pad2 (natDigits m.toNat) ++ ':' :: (pad2 (natDigits s.toNat) ++ '.' :: pad2 (natDigits cs.toNat))

/-- `seconds_to_lrc_time` from `play.py`: format seconds as `MM:SS.cc`. -/
def seconds_to_lrc_time (sec : ℚ) : List Char := formatTriple (lrcTriple sec)

/-- `lrc_time_to_seconds` from `play.py`: parse `[MM:SS.ff]`, `MM:SS.ff`,
`MM:SS` or a bare numeric string into seconds. -/
def lrc_time_to_seconds (t0 : List Char) : Option ℚ :=
  let t := stripBrackets (pyStrip t0)
  if ':' ∈ t then
    match splitOnChar ':' t with
    | p0 :: p1 :: _ =>
      match pyParseNat p0 with
      | none => none
      | some minutes =>
        if '.' ∈ p1 then
          match splitOnChar '.' p1 with
          | [sPart, frac] =>
            match pyParseNat sPart, pyParseNat frac with
            | some seconds, some fracVal =>
              if frac.length = 2 then
                some ((minutes : ℚ) * 60 + (seconds : ℚ) + (fracVal : ℚ) / 100)
              else
                some ((minutes : ℚ) * 60 + (seconds : ℚ) + (fracVal : ℚ) / 1000)
            | _, _ => none
          | _ => none
        else
          match pyParseNat p1 with
          | some seconds => some ((minutes : ℚ) * 60 + (seconds : ℚ))
          | none => none
    | _ => none
  else pyParseFloat t

example : seconds_to_lrc_time (61.237 : ℚ) = s2l "01:01.24" := by
  have h : lrcTriple (61.237 : ℚ) = (1, 1, 24) := by
    norm_num [lrcTriple, pyInt, pyMod, roundHalfEven]
  show formatTriple (lrcTriple (61.237 : ℚ)) = s2l "01:01.24"
  rw [h]
  rfl

example : lrc_time_to_seconds (s2l "01:01.24") = some (61.24 : ℚ) := by
  have h : lrc_time_to_seconds (s2l "01:01.24") =
      some ((1 : ℚ) * 60 + (1 : ℚ) + (24 : ℚ) / 100) := rfl
  rw [h]
  norm_num

/-- A raw timestamp match of the regex `\[(\d\x7b1,2\x7d):(\d\x7b2\x7d)\.(\d\x7b2,3\x7d)\]`:
the three capture groups as digit strings. -/
structure Ts where
  m : List Char
  s : List Char
  f : List Char
deriving DecidableEq

/-- Match exactly `n` decimal digits at the head of the input, returning them
and the remaining suffix. -/
def matchDigits : ℕ → List Char → Option (List Char × List Char)
  | 0, l => some ([], l)
  | _ + 1, [] => none
  | n + 1, c :: r =>
    if c.isDigit then (matchDigits n r).map (fun p => (c :: p.1, p.2)) else none

/-- Match the fractional part and closing bracket `(\d\x7b2,3\x7d)\]`: greedy,
three digits first, backtracking to two. -/
def matchFrac (r4 : List Char) : Option (List Char × List Char) :=
  match matchDigits 3 r4 with
  | some (fd, ']' :: r5) => some (fd, r5)
  | _ =>
    match matchDigits 2 r4 with
    | some (fd, ']' :: r5) => some (fd, r5)
    | _ => none

/-- Continue a timestamp match after the minutes digits: `:(\d\x7b2\x7d)\.` then
the fractional part. -/
def matchAfterMin (md : List Char) (r1 : List Char) : Option (Ts × List Char) :=
  match r1 with
  | ':' :: r2 =>
    match matchDigits 2 r2 with
    | some (sd, '.' :: r4) =>
      match matchFrac r4 with
      | some (fd, r5) => some (⟨md, sd, fd⟩, r5)
      | none => none
    | _ => none
  | _ => none

/-- Match the whole timestamp regex at the head of the input: greedy one-or-two
digit minutes with backtracking, as `re` would. -/
def matchTs : List Char → Option (Ts × List Char)
  | '[' :: r0 =>
    (match matchDigits 2 r0 with
     | some (md, r1) => matchAfterMin md r1
     | none => none).orElse
      (fun _ =>
        match matchDigits 1 r0 with
        | some (md, r1) => matchAfterMin md r1
        | none => none)
  | _ => none

/-- Fuelled scan of a line: simultaneously `time_pattern.findall(line)` (the
list of non-overlapping leftmost matches) and `time_pattern.sub('', line)` (the
line with those matches removed).  Fuel bounds the number of scan steps; each
step consumes at least one character, so `fuel = length` is always enough. -/
def scanTsF : ℕ → List Char → List Ts × List Char
  | 0, l => ([], l)
  | _ + 1, [] => ([], [])
  | fuel + 1, c :: rest =>
    match matchTs (c :: rest) with
    | some (t, rem) =>
      let p := scanTsF fuel rem
      (t :: p.1, p.2)
    | none =>
      let p := scanTsF fuel rest
      (p.1, c :: p.2)

/-- Scan a whole line for timestamp matches (see `scanTsF`). -/
def scanTs (l : List Char) : List Ts × List Char := scanTsF l.length l

/-- The metadata tags of `meta_pattern` in `parse_lrc`. -/
def metaTags : List (List Char) :=
  [s2l "ti", s2l "ar", s2l "al", s2l "by", s2l "offset", s2l "re",
   s2l "title", s2l "artist", s2l "album"]

/-- Case-insensitive test for a metadata line, `meta_pattern.search(line)`:
the anchored pattern matches iff the line starts with `[tag:`. -/
def isMeta (l : List Char) : Bool :=
  metaTags.any (fun tag => (('[' :: tag) ++ [':']).isPrefixOf (pyLower l))

/-- Seconds denoted by one timestamp match (`play.py` lines 301-308):
two fractional digits are centiseconds, three are milliseconds. -/
def tsSeconds (t : Ts) : ℚ :=
  (digitsVal t.m : ℚ) * 60 + (digitsVal t.s : ℚ) +
    (if t.f.length = 2 then (digitsVal t.f : ℚ) / 100 else (digitsVal t.f : ℚ) / 1000)

/-- One parsed lyric entry (`\x7b"start": ..., "end": ..., "text": ...\x7d`).
The Python key `end` is a Lean keyword, hence the field name `end_`. -/
structure Entry where
  start : ℚ
  end_ : ℚ
  text : List Char
deriving DecidableEq

/-- Append a continuation line to the text of the last entry
(`lyrics[-1]["text"] += "\n" + text`). -/
def appendToLast : List Entry → List Char → List Entry
  | [], _ => []
  | [e], t => [{ e with text := e.text ++ '\n' :: t }]
  | a :: b :: r, t => a :: appendToLast (b :: r) t

/-- The per-line accumulation loop of `parse_lrc` (`play.py` lines 282-314):
strip, skip blank and metadata lines, extract all timestamps, treat
timestamp-free lines as continuations, and create one entry per timestamp with
the shared stripped text and placeholder `end = start + 3.0`. -/
def parseLines : List Entry → List (List Char) → List Entry
  | acc, [] => acc
  | acc, line :: rest =>
    let l := pyStrip line
    if l.isEmpty then parseLines acc rest
    else if isMeta l then parseLines acc rest
    else
      let sc := scanTs l
      let text := pyStrip sc.2
      if sc.1.isEmpty then
        if !acc.isEmpty && !text.isEmpty then parseLines (appendToLast acc text) rest
        else parseLines acc rest
      else
        parseLines (acc ++ sc.1.map (fun t => ⟨tsSeconds t, tsSeconds t + 3, text⟩)) rest

/-- The sort key `lambda x: x["start"]` of `lyrics.sort`. -/
def entryLE : Entry → Entry → Prop := fun a b => a.start ≤ b.start

instance : DecidableRel entryLE := fun a b => inferInstanceAs (Decidable (a.start ≤ b.start))

/-- Python's stable ascending `lyrics.sort(key=lambda x: x["start"])`,
modelled by stable insertion sort. -/
def sortLyrics (l : List Entry) : List Entry := List.insertionSort entryLE l

/-- The end-update pass (`play.py` lines 320-321): every entry except the last
gets `end = next.start`. -/
def setEnds : List Entry → List Entry
  | [] => []
  | [e] => [e]
  | a :: b :: r => { a with end_ := b.start } :: setEnds (b :: r)

/-- The last-entry duration estimation (`play.py` lines 324-328), applied only
when the current end does not exceed the start. -/
def fixLastEntry (e : Entry) : Entry :=
  if e.end_ ≤ e.start then
    { e with end_ := e.start + max 2 ((e.text.length : ℚ) * 0.1) }
  else e

/-- Apply `fixLastEntry` to the last entry of the list, if any. -/
def lastFix : List Entry → List Entry
  | [] => []
  | [e] => [fixLastEntry e]
  | a :: b :: r => a :: lastFix (b :: r)

/-- `parse_lrc` from `play.py`, taking the already-split lines of the file
(file reading is I/O outside this model): accumulate entries, sort by start,
update ends from successors, and fix the last entry. -/
def parse_lrc (lines : List (List Char)) : List Entry :=
  lastFix (setEnds (sortLyrics (parseLines [] lines)))

example :
    scanTs (s2l "[00:01.00]hello[00:02.50]") =
      ([⟨s2l "00", s2l "01", s2l "00"⟩, ⟨s2l "00", s2l "02", s2l "50"⟩], s2l "hello") := rfl

/-- One per-word timing record of `export_json` (`play.py` lines 527-533). -/
structure WordTiming where
  word : List Char
  start : ℚ
  end_ : ℚ
  start_time : List Char
  end_time : List Char
deriving DecidableEq

/-- The per-caption word-timing computation of `export_json`
(`play.py` lines 519-535): whitespace-split the text, divide
`max(0.0001, end - start)` evenly among the words, and assign word `idx`
the span `[start + idx*step, start + idx*step + step]`. -/
def exportWords (caption : Entry) : List WordTiming :=
  let words := pySplit caption.text
  let duration := max 0.0001 (caption.end_ - caption.start)
  let step := if words.isEmpty then duration else duration / (words.length : ℚ)
  words.enum.map (fun p =>
    let word_start := caption.start + (p.1 : ℚ) * step
    let word_end := word_start + step
    ⟨p.2, word_start, word_end, seconds_to_lrc_time word_start, seconds_to_lrc_time word_end⟩)

/-- The adjusted start timestamps printed by `print_schedule`
(`play.py` lines 563-571): `baseline + (start - first_time)/speed_multiplier + offset`
per entry, with `baseline = start_time or 0.0` and `first_time = lyrics[0].start`. -/
def scheduleStarts (lyrics : List Entry) (offset : ℚ) (start_time : Option ℚ)
    (speed_multiplier : ℚ) : List ℚ :=
  let first_time := match lyrics with | [] => 0 | e :: _ => e.start
  let baseline := start_time.getD 0
  lyrics.map (fun line => baseline + (line.start - first_time) / speed_multiplier + offset)

/-- The absolute start times targeted by `play_realtime`
(`play.py` lines 591-596): `baseline + (start - first_time)/speed_multiplier + offset`
per entry, with `baseline = start_time or 0.0` and `first_time = lyrics[0].start`. -/
def realtimeTargets (lyrics : List Entry) (offset : ℚ) (start_time : Option ℚ)
    (speed_multiplier : ℚ) : List ℚ :=
  let first_time := match lyrics with | [] => 0 | e :: _ => e.start
  let baseline := start_time.getD 0
  lyrics.map (fun line => baseline + (line.start - first_time) / speed_multiplier + offset)

/-- The per-sub-line drift compensation of `play_realtime`
(`play.py` lines 608-612): when the drift is positive, divide the base
per-character delay by `min(3.0, 1.0 + drift*2.0)` and floor at `0.001`. -/
def effectiveSpeed (base_speed drift : ℚ) : ℚ :=
  if drift > 0 then
    let catchup := min 3 (1 + drift * 2)
    max (base_speed / catchup) 0.001
  else base_speed

/-- One genre profile from the configuration mapping. -/
structure GenreConfig where
  color : List Char
  speed : ℚ
  effect : List Char
  description : List Char
deriving DecidableEq

/-- The `genres` table of `DEFAULT_CONFIG` (`play.py` lines 52-155),
in insertion order. -/
def DEFAULT_GENRES : List (List Char × GenreConfig) :=
  [(s2l "rnb_soul", ⟨s2l "\x1b[95m", 0.035, s2l "smooth_fade", s2l "R&B / Soul — smooth, warm, slow fade-in"⟩),
   (s2l "jazz", ⟨s2l "\x1b[94m", 0.06, s2l "swing", s2l "Jazz — swing timing, subtle wander"⟩),
   (s2l "blues", ⟨s2l "\x1b[34m", 0.055, s2l "wave", s2l "Blues — slow, mournful wave"⟩),
   (s2l "childrens", ⟨s2l "\x1b[96m", 0.045, s2l "bounce", s2l "Children's — playful bounce and bright color"⟩),
   (s2l "classical", ⟨s2l "\x1b[97m", 0.085, s2l "elegant_fade", s2l "Classical — slow and stately"⟩),
   (s2l "country", ⟨s2l "\x1b[33m", 0.05, s2l "typewriter", s2l "Country — clear typewriter style"⟩),
   (s2l "easy_listening", ⟨s2l "\x1b[37m", 0.065, s2l "smooth", s2l "Easy Listening — mellow and unobtrusive"⟩),
   (s2l "electronic", ⟨s2l "\x1b[96m", 0.01, s2l "glitch", s2l "Electronic — fast, glitchy, bright"⟩),
   (s2l "folk_world", ⟨s2l "\x1b[92m", 0.05, s2l "vibrate", s2l "Folk / World — organic, gentle vibrato"⟩),
   (s2l "hiphop", ⟨s2l "\x1b[93m", 0.012, s2l "shake", s2l "Hip Hop — smooth, rhythmic, punchy"⟩),
   (s2l "rap", ⟨s2l "\x1b[91m", 0.008, s2l "heavy_shake", s2l "Rap — fast, aggressive, intense"⟩),
   (s2l "holiday_religious", ⟨s2l "\x1b[33m", 0.04, s2l "glow", s2l "Holiday / Religious — warm glow"⟩),
   (s2l "latin", ⟨s2l "\x1b[91m", 0.035, s2l "salsa", s2l "Latin — rhythmic, lively"⟩),
   (s2l "pop", ⟨s2l "\x1b[95m", 0.02, s2l "bounce", s2l "Pop — bright, per-word bounce"⟩),
   (s2l "reggae", ⟨s2l "\x1b[92m", 0.045, s2l "reggae_wave", s2l "Reggae — laid-back, offbeat wave"⟩),
   (s2l "rock", ⟨s2l "\x1b[31m", 0.013, s2l "heavy_shake", s2l "Rock — aggressive, strong hits"⟩),
   (s2l "soundtrack_library", ⟨s2l "\x1b[97m", 0.05, s2l "cinematic", s2l "Soundtrack / Library — cinematic, neutral"⟩)]

/-- The `default_genre` of `DEFAULT_CONFIG`. -/
def DEFAULT_GENRE : List Char := s2l "hiphop"

/-- Outcome of the genre-selection step of `main`: either exit status 1 with
the printed enumeration of every genre name and description, or proceed to
playback with the selected genre profile. -/
inductive MainGenreStep where
  | exitWithListing (code : ℕ) (listing : List (List Char × List Char))
  | proceed (genre : GenreConfig)
deriving DecidableEq

/-- The genre-selection step of `main` (`play.py` lines 666-673):
`genre_key = (args.genre or default_genre).lower()`; an unknown key prints the
name and description of every configured genre and exits with status 1,
otherwise playback proceeds with the selected profile. -/
def genreLookupStep (genres : List (List Char × GenreConfig)) (genreArg : Option (List Char))
    (default_genre : List Char) : MainGenreStep :=
  let genre_key := pyLower (genreArg.getD default_genre)
  match genres.find? (fun p => p.1 == genre_key) with
  | none => .exitWithListing 1 (genres.map (fun p => (p.1, p.2.description)))
  | some p => .proceed p.2

/-- `get_animation_delay` from `play.py` (lines 394-421) over the reals.  The
draws of `random.random()` made by the `bounce` and `glitch` branches are
modelled by the extra parameter `r`, an arbitrary value in `[0, 1)`. -/
noncomputable def get_animation_delay (effect : List Char) (base_speed : ℝ) (char_index : ℕ)
    (r : ℝ) : ℝ :=
  if effect = s2l "bounce" then base_speed * (0.8 + r * 0.4)
  else if effect = s2l "wave" then base_speed * (1.0 + 0.3 * Real.sin (char_index * 0.5))
  else if effect = s2l "swing" then base_speed * (1.0 + 0.2 * Real.sin (char_index * 0.3))
  else if effect = s2l "shake" ∨ effect = s2l "heavy_shake" then
    (if char_index % 3 = 0 then base_speed * 0.5 else base_speed)
  else if effect = s2l "glitch" then base_speed * (0.5 + r * 1.0)
  else if effect = s2l "vibrate" then base_speed * (1.0 + 0.15 * Real.sin (char_index * 0.7))
  else if effect = s2l "salsa" then base_speed * (1.0 + 0.25 * Real.sin (char_index * 0.4))
  else if effect = s2l "reggae_wave" then base_speed * (1.0 + 0.2 * Real.sin (char_index * 0.35 + 0.5))
  else base_speed

/-- Bounding a delay of the form `b * f` when the factor `f` lies in `[0.5, 1.5]`. -/
theorem mulFactorBounds (b f : ℝ) (hb : 0 ≤ b) (h05 : 0.5 ≤ f) (h15 : f ≤ 1.5) :
    0.5 * b ≤ b * f ∧ b * f ≤ 1.5 * b ∧ (0 < b → 0 < b * f) :=
  ⟨by nlinarith, by nlinarith, fun h => by nlinarith⟩

/-- C3: for every entry sequence and every transform (offset, start time,
speed multiplier), the absolute start timestamps reported by `print_schedule`
coincide with the absolute starts targeted by `play_realtime`. -/
theorem schedule_matches_realtime :
    ∀ (lyrics : List Entry) (offset : ℚ) (start_time : Option ℚ) (speed_multiplier : ℚ),
      scheduleStarts lyrics offset start_time speed_multiplier =
        realtimeTargets lyrics offset start_time speed_multiplier :=
  fun _ _ _ _ => rfl

/-- C5: with zero offset and no explicit start time, every scheduled absolute
start computed with speed multiplier 2 is exactly half of the one computed
with multiplier 1, both for `print_schedule` and for `play_realtime`. -/
theorem speed_two_halves_schedule (lyrics : List Entry) :
    scheduleStarts lyrics 0 none 2 = (scheduleStarts lyrics 0 none 1).map (fun t => t / 2) ∧
    realtimeTargets lyrics 0 none 2 = (realtimeTargets lyrics 0 none 1).map (fun t => t / 2) := by
  constructor <;>
  · cases lyrics with
    | nil => rfl
    | cons e rest =>
      simp only [scheduleStarts, realtimeTargets, List.map_map]
      refine List.map_congr_left (fun line _ => ?_)
      simp only [Option.getD_none, Function.comp_apply]
      ring

/-- C4: in the drift-compensation step of `play_realtime`, a positive drift
makes the per-character delay `max(base_speed / min(3, 1 + drift*2), 0.001)`;
at drift 1 the catch-up factor is exactly 3 and the delay is
`max(base_speed / 3, 0.001)`. -/
theorem drift_compensation_formula (base_speed drift : ℚ) (h : 0 < drift) :
    effectiveSpeed base_speed drift = max (base_speed / min 3 (1 + drift * 2)) 0.001 ∧
    effectiveSpeed base_speed 1 = max (base_speed / 3) 0.001 := by
  constructor
  · simp [effectiveSpeed, h]
  · norm_num [effectiveSpeed]

/-- Witness for C4 at `base_speed = 0.012` (the hiphop speed), `drift = 1`. -/
theorem drift_compensation_witness :
    effectiveSpeed 0.012 1 = max ((0.012 : ℚ) / min 3 (1 + 1 * 2)) 0.001 ∧
    effectiveSpeed 0.012 1 = max ((0.012 : ℚ) / 3) 0.001 :=
  drift_compensation_formula 0.012 1 one_pos

/-- C10: for every effect tag, character index, nonnegative base speed and
random draw in `[0, 1)`, `get_animation_delay` stays within
`[0.5 * base_speed, 1.5 * base_speed]`, and is positive when the base speed is. -/
theorem animation_delay_bounds (effect : List Char) (base_speed : ℝ) (char_index : ℕ) (r : ℝ)
    (hb : 0 ≤ base_speed) (hr0 : 0 ≤ r) (hr1 : r < 1) :
    0.5 * base_speed ≤ get_animation_delay effect base_speed char_index r ∧
    get_animation_delay effect base_speed char_index r ≤ 1.5 * base_speed ∧
    (0 < base_speed → 0 < get_animation_delay effect base_speed char_index r) := by
  unfold get_animation_delay
  split_ifs with h1 h2 h3 h4 h5 h6 h7 h8 h9
  · exact mulFactorBounds _ _ hb (by nlinarith) (by nlinarith)
  · have := Real.neg_one_le_sin ((char_index : ℝ) * 0.5)
    have := Real.sin_le_one ((char_index : ℝ) * 0.5)
    exact mulFactorBounds _ _ hb (by nlinarith) (by nlinarith)
  · have := Real.neg_one_le_sin ((char_index : ℝ) * 0.3)
    have := Real.sin_le_one ((char_index : ℝ) * 0.3)
    exact mulFactorBounds _ _ hb (by nlinarith) (by nlinarith)
  · exact mulFactorBounds _ _ hb (by norm_num) (by norm_num)
  · exact ⟨by linarith, by linarith, fun h => h⟩
  · exact mulFactorBounds _ _ hb (by nlinarith) (by nlinarith)
  · have := Real.neg_one_le_sin ((char_index : ℝ) * 0.7)
    have := Real.sin_le_one ((char_index : ℝ) * 0.7)
    exact mulFactorBounds _ _ hb (by nlinarith) (by nlinarith)
  · have := Real.neg_one_le_sin ((char_index : ℝ) * 0.4)
    have := Real.sin_le_one ((char_index : ℝ) * 0.4)
    exact mulFactorBounds _ _ hb (by nlinarith) (by nlinarith)
  · have := Real.neg_one_le_sin ((char_index : ℝ) * 0.35 + 0.5)
    have := Real.sin_le_one ((char_index : ℝ) * 0.35 + 0.5)
    exact mulFactorBounds _ _ hb (by nlinarith) (by nlinarith)
  · exact ⟨by linarith, by linarith, fun h => h⟩

/-- Witness for C10 with the `wave` effect, base speed 1, index 0, draw 0. -/
theorem animation_delay_bounds_witness :
    0.5 * (1 : ℝ) ≤ get_animation_delay (s2l "wave") 1 0 0 ∧
    get_animation_delay (s2l "wave") 1 0 0 ≤ 1.5 * (1 : ℝ) ∧
    ((0 : ℝ) < 1 → 0 < get_animation_delay (s2l "wave") 1 0 0) :=
  animation_delay_bounds (s2l "wave") 1 0 0 zero_le_one (le_refl 0) zero_lt_one

/-- C9: when the (lowercased) selected genre key is absent from the configured
genre mapping, `main` prints the name and description of every configured
genre and exits with status 1; playback is never reached and no default
profile is silently substituted. -/
theorem unknown_genre_exits_with_listing
    (genres : List (List Char × GenreConfig)) (genreArg : Option (List Char))
    (default_genre : List Char)
    (h : ∀ p ∈ genres, p.1 ≠ pyLower (genreArg.getD default_genre)) :
    genreLookupStep genres genreArg default_genre =
      .exitWithListing 1 (genres.map (fun p => (p.1, p.2.description))) ∧
    (∀ g, genreLookupStep genres genreArg default_genre ≠ .proceed g) ∧ (1 : ℕ) ≠ 0 := by
  have hf : genres.find? (fun p => p.1 == pyLower (genreArg.getD default_genre)) = none := by
    rw [List.find?_eq_none]
    intro p hp
    simpa using h p hp
  refine ⟨by simp [genreLookupStep, hf], fun g => by simp [genreLookupStep, hf], one_ne_zero⟩

/-- Witness for C9: the key `kpop` is not in the default genre table. -/
theorem unknown_genre_witness :
    genreLookupStep DEFAULT_GENRES (some (s2l "kpop")) DEFAULT_GENRE =
      .exitWithListing 1 (DEFAULT_GENRES.map (fun p => (p.1, p.2.description))) ∧
    (∀ g, genreLookupStep DEFAULT_GENRES (some (s2l "kpop")) DEFAULT_GENRE ≠ .proceed g) ∧
    (1 : ℕ) ≠ 0 :=
  unknown_genre_exits_with_listing DEFAULT_GENRES (some (s2l "kpop")) DEFAULT_GENRE (by decide)

/-- C7: the exporter assigns word `k` (0-based) of an entry the span
`[start + k*step, start + k*step + step]` with
`step = max(0.0001, end - start) / word_count`; on the entry
`(start 2, end 5, text "b c")` this yields words `b : [2, 3.5]` and
`c : [3.5, 5]` with step `1.5`. -/
theorem word_timing_uniform_subdivision :
    (∀ (e : Entry) (k : ℕ) (wt : WordTiming), (exportWords e)[k]? = some wt →
      wt.start = e.start +
        (k : ℚ) * (max 0.0001 (e.end_ - e.start) / ((pySplit e.text).length : ℚ)) ∧
      wt.end_ = wt.start +
        max 0.0001 (e.end_ - e.start) / ((pySplit e.text).length : ℚ)) ∧
    exportWords ⟨2, 5, s2l "b c"⟩ =
      [⟨s2l "b", 2, 7/2, s2l "00:02.00", s2l "00:03.50"⟩,
       ⟨s2l "c", 7/2, 5, s2l "00:03.50", s2l "00:05.00"⟩] := by
  constructor
  · intro e k wt h
    unfold exportWords at h
    rw [List.getElem?_map, List.getElem?_enum] at h
    cases hw : (pySplit e.text)[k]? with
    | none => rw [hw] at h; simp at h
    | some w =>
      rw [hw] at h
      have hne : (pySplit e.text).isEmpty = false := by
        cases hl : pySplit e.text with
        | nil => rw [hl] at hw; simp at hw
        | cons a as => rfl
      rw [hne] at h
      simp only [Option.map_some', Option.some.injEq, Bool.false_eq_true, if_false] at h
      subst h
      exact ⟨rfl, rfl⟩
  · have hw : pySplit (s2l "b c") = [s2l "b", s2l "c"] := rfl
    have hmax : max (0.0001 : ℚ) ((5 : ℚ) - 2) = 3 := by norm_num
    have f2 : seconds_to_lrc_time 2 = s2l "00:02.00" := by
      have h : lrcTriple (2 : ℚ) = (0, 2, 0) := by
        norm_num [lrcTriple, pyInt, pyMod, roundHalfEven]
      show formatTriple (lrcTriple (2 : ℚ)) = _
      rw [h]; rfl
    have f35 : seconds_to_lrc_time (7/2) = s2l "00:03.50" := by
      have h : lrcTriple ((7 : ℚ)/2) = (0, 3, 50) := by
        norm_num [lrcTriple, pyInt, pyMod, roundHalfEven]
      show formatTriple (lrcTriple ((7 : ℚ)/2)) = _
      rw [h]; rfl
    have f5 : seconds_to_lrc_time 5 = s2l "00:05.00" := by
      have h : lrcTriple (5 : ℚ) = (0, 5, 0) := by
        norm_num [lrcTriple, pyInt, pyMod, roundHalfEven]
      show formatTriple (lrcTriple (5 : ℚ)) = _
      rw [h]; rfl
    norm_num [exportWords, hw, hmax, List.enum, List.enumFrom]
    norm_num [show (2 : ℚ) + 3/2 = 7/2 by norm_num, show (7 : ℚ)/2 + 3/2 = 5 by norm_num,
      f2, f35, f5]
    exact ⟨rfl, rfl⟩

/-- Witness for C7: the first exported word of the entry `(2, 5, "b c")`. -/
theorem word_timing_witness :
    (⟨s2l "b", 2, 7/2, s2l "00:02.00", s2l "00:03.50"⟩ : WordTiming).start =
      (⟨2, 5, s2l "b c"⟩ : Entry).start + ((0 : ℕ) : ℚ) *
        (max 0.0001 ((⟨2, 5, s2l "b c"⟩ : Entry).end_ - (⟨2, 5, s2l "b c"⟩ : Entry).start) /
          ((pySplit (⟨2, 5, s2l "b c"⟩ : Entry).text).length : ℚ)) ∧
    (⟨s2l "b", 2, 7/2, s2l "00:02.00", s2l "00:03.50"⟩ : WordTiming).end_ =
      (⟨s2l "b", 2, 7/2, s2l "00:02.00", s2l "00:03.50"⟩ : WordTiming).start +
        max 0.0001 ((⟨2, 5, s2l "b c"⟩ : Entry).end_ - (⟨2, 5, s2l "b c"⟩ : Entry).start) /
          ((pySplit (⟨2, 5, s2l "b c"⟩ : Entry).text).length : ℚ) :=
  word_timing_uniform_subdivision.1 ⟨2, 5, s2l "b c"⟩ 0
    ⟨s2l "b", 2, 7/2, s2l "00:02.00", s2l "00:03.50"⟩
    (by rw [word_timing_uniform_subdivision.2]; rfl)


theorem appendToLast_shape : ∀ (acc : List Entry) (t : List Char) (e : Entry),
    e ∈ appendToLast acc t → ∃ e' ∈ acc, e.start = e'.start ∧ e.end_ = e'.end_
  | [], _, _, h => by simp [appendToLast] at h
  | [a], t, e, h => by
    simp [appendToLast] at h
    exact ⟨a, by simp, by simp [h], by simp [h]⟩
  | a :: b :: r, t, e, h => by
    rw [appendToLast] at h
    rcases List.mem_cons.mp h with h | h
    · exact ⟨a, by simp, by simp [h], by simp [h]⟩
    · obtain ⟨e', he', h1, h2⟩ := appendToLast_shape (b :: r) t e h
      exact ⟨e', List.mem_cons_of_mem a he', h1, h2⟩

theorem parseLines_placeholder : ∀ (lines : List (List Char)) (acc : List Entry),
    (∀ e ∈ acc, e.end_ = e.start + 3) →
    ∀ e ∈ parseLines acc lines, e.end_ = e.start + 3
  | [], acc, hacc, e, he => hacc e he
  | line :: rest, acc, hacc, e, he => by
    rw [parseLines] at he
    dsimp only at he
    split_ifs at he with h1 h2 h3 h4
    · exact parseLines_placeholder rest acc hacc e he
    · exact parseLines_placeholder rest acc hacc e he
    · refine parseLines_placeholder rest _ ?_ e he
      intro x hx
      obtain ⟨e', he', h1', h2'⟩ := appendToLast_shape acc _ x hx
      rw [h1', h2']
      exact hacc e' he'
    · exact parseLines_placeholder rest acc hacc e he
    · refine parseLines_placeholder rest _ ?_ e he
      intro x hx
      rcases List.mem_append.mp hx with hx | hx
      · exact hacc x hx
      · obtain ⟨t, _, rfl⟩ := List.mem_map.mp hx
        rfl

theorem sortLyrics_sorted (l : List Entry) : List.Sorted entryLE (sortLyrics l) := by
  haveI : IsTotal Entry entryLE := ⟨fun a b => le_total a.start b.start⟩
  haveI : IsTrans Entry entryLE := ⟨fun a b c hab hbc => le_trans hab hbc⟩
  exact List.sorted_insertionSort entryLE l

theorem sortLyrics_perm (l : List Entry) : List.Perm (sortLyrics l) l :=
  List.perm_insertionSort entryLE l

theorem setEnds_length : ∀ l : List Entry, (setEnds l).length = l.length
  | [] => rfl
  | [_] => rfl
  | a :: b :: r => by
    rw [setEnds]
    simpa using setEnds_length (b :: r)

theorem setEnds_getLast? : ∀ l : List Entry, (setEnds l).getLast? = l.getLast?
  | [] => rfl
  | [_] => rfl
  | a :: b :: r => by
    rw [setEnds]
    rw [List.getLast?_cons_cons]
    have hne : setEnds (b :: r) ≠ [] := by
      intro hc
      have := setEnds_length (b :: r)
      rw [hc] at this
      simp at this
    cases hs : setEnds (b :: r) with
    | nil => exact absurd hs hne
    | cons x xs =>
      rw [List.getLast?_cons_cons]
      rw [← hs, setEnds_getLast? (b :: r)]

theorem setEnds_shape : ∀ (l : List Entry) (e : Entry), e ∈ setEnds l →
    ∃ e' ∈ l, e.start = e'.start ∧ e.text = e'.text
  | [], e, h => by simp [setEnds] at h
  | [a], e, h => by
    simp [setEnds] at h
    exact ⟨a, by simp, by simp [h], by simp [h]⟩
  | a :: b :: r, e, h => by
    rw [setEnds] at h
    rcases List.mem_cons.mp h with h | h
    · exact ⟨a, by simp, by simp [h], by simp [h]⟩
    · obtain ⟨e', he', h1, h2⟩ := setEnds_shape (b :: r) e h
      exact ⟨e', List.mem_cons_of_mem a he', h1, h2⟩

theorem setEnds_start_le : ∀ l : List Entry, List.Sorted entryLE l →
    (∀ e ∈ l, e.end_ = e.start + 3) → ∀ e ∈ setEnds l, e.start ≤ e.end_
  | [], _, _, e, he => by simp [setEnds] at he
  | [a], _, hp, e, he => by
    simp [setEnds] at he
    have h3 := hp a (by simp)
    rw [he]
    linarith
  | a :: b :: r, hs, hp, e, he => by
    rw [setEnds] at he
    rcases List.mem_cons.mp he with h | h
    · subst h
      exact (List.sorted_cons.mp hs).1 b (by simp)
    · exact setEnds_start_le (b :: r) (List.sorted_cons.mp hs).2
        (fun x hx => hp x (List.mem_cons_of_mem a hx)) e h

theorem lastFix_shape : ∀ (l : List Entry) (e : Entry), e ∈ lastFix l →
    ∃ e' ∈ l, e.start = e'.start ∧ e.text = e'.text
  | [], e, h => by simp [lastFix] at h
  | [a], e, h => by
    simp [lastFix] at h
    refine ⟨a, by simp, ?_, ?_⟩ <;>
    · rw [h]
      unfold fixLastEntry
      split_ifs <;> rfl
  | a :: b :: r, e, h => by
    rw [lastFix] at h
    rcases List.mem_cons.mp h with h | h
    · exact ⟨a, by simp, by simp [h], by simp [h]⟩
    · obtain ⟨e', he', h1, h2⟩ := lastFix_shape (b :: r) e h
      exact ⟨e', List.mem_cons_of_mem a he', h1, h2⟩

theorem lastFix_length : ∀ l : List Entry, (lastFix l).length = l.length
  | [] => rfl
  | [_] => rfl
  | a :: b :: r => by
    rw [lastFix]
    simpa using lastFix_length (b :: r)

theorem fixLastEntry_le (e : Entry) : e.start ≤ e.end_ → (fixLastEntry e).start ≤ (fixLastEntry e).end_ := by
  intro h
  unfold fixLastEntry
  split_ifs with hc
  · simp only
    have h2 : (2 : ℚ) ≤ max 2 ((e.text.length : ℚ) * 0.1) := le_max_left _ _
    linarith
  · exact h

theorem lastFix_start_le : ∀ l : List Entry, (∀ e ∈ l, e.start ≤ e.end_) →
    ∀ e ∈ lastFix l, e.start ≤ e.end_
  | [], _, e, he => by simp [lastFix] at he
  | [a], hp, e, he => by
    simp [lastFix] at he
    rw [he]
    exact fixLastEntry_le a (hp a (by simp))
  | a :: b :: r, hp, e, he => by
    rw [lastFix] at he
    rcases List.mem_cons.mp he with h | h
    · rw [h]
      exact hp a (by simp)
    · exact lastFix_start_le (b :: r) (fun x hx => hp x (List.mem_cons_of_mem a hx)) e h

theorem lastFix_getLast? : ∀ (l : List Entry) (e : Entry), l.getLast? = some e →
    (lastFix l).getLast? = some (fixLastEntry e)
  | [], e, h => by simp at h
  | [a], e, h => by
    simp at h
    rw [h]
    rfl
  | a :: b :: r, e, h => by
    rw [List.getLast?_cons_cons] at h
    rw [lastFix]
    have hne : lastFix (b :: r) ≠ [] := by
      intro hc
      have := lastFix_length (b :: r)
      rw [hc] at this
      simp at this
    cases hs : lastFix (b :: r) with
    | nil => exact absurd hs hne
    | cons x xs =>
      rw [List.getLast?_cons_cons, ← hs]
      exact lastFix_getLast? (b :: r) e h

theorem tsSeconds_0100 : tsSeconds ⟨s2l "00", s2l "01", s2l "00"⟩ = 1 := by
  have d1 : digitsVal ['0','0'] = 0 := rfl
  have d2 : digitsVal ['0','1'] = 1 := rfl
  norm_num [tsSeconds, d1, d2, s2l]

theorem tsSeconds_0250 : tsSeconds ⟨s2l "00", s2l "02", s2l "50"⟩ = 5/2 := by
  have d1 : digitsVal ['0','0'] = 0 := rfl
  have d2 : digitsVal ['0','2'] = 2 := rfl
  have d3 : digitsVal ['5','0'] = 50 := rfl
  norm_num [tsSeconds, d1, d2, d3, s2l]

theorem tsSeconds_0000 : tsSeconds ⟨s2l "00", s2l "00", s2l "00"⟩ = 0 := by
  have d1 : digitsVal ['0','0'] = 0 := rfl
  norm_num [tsSeconds, d1, s2l]

theorem parseConcreteTwoTs :
    parse_lrc [s2l "[00:01.00]hello[00:02.50]"] =
      [⟨1, 5/2, s2l "hello"⟩, ⟨5/2, 11/2, s2l "hello"⟩] := by
  have h1 : parseLines [] [s2l "[00:01.00]hello[00:02.50]"] =
      [⟨tsSeconds ⟨s2l "00", s2l "01", s2l "00"⟩, tsSeconds ⟨s2l "00", s2l "01", s2l "00"⟩ + 3, s2l "hello"⟩,
       ⟨tsSeconds ⟨s2l "00", s2l "02", s2l "50"⟩, tsSeconds ⟨s2l "00", s2l "02", s2l "50"⟩ + 3, s2l "hello"⟩] := rfl
  rw [parse_lrc, h1, tsSeconds_0100, tsSeconds_0250]
  have hs : sortLyrics [⟨1, 1 + 3, s2l "hello"⟩, ⟨5/2, 5/2 + 3, s2l "hello"⟩] =
      [⟨1, 1 + 3, s2l "hello"⟩, ⟨5/2, 5/2 + 3, s2l "hello"⟩] := by
    norm_num [sortLyrics, entryLE, List.insertionSort, List.orderedInsert]
  rw [hs]
  norm_num [setEnds, lastFix, fixLastEntry]

theorem parseConcreteDup :
    parse_lrc [s2l "[00:01.00]a[00:01.00]"] =
      [⟨1, 1, s2l "a"⟩, ⟨1, 4, s2l "a"⟩] := by
  have h1 : parseLines [] [s2l "[00:01.00]a[00:01.00]"] =
      [⟨tsSeconds ⟨s2l "00", s2l "01", s2l "00"⟩, tsSeconds ⟨s2l "00", s2l "01", s2l "00"⟩ + 3, s2l "a"⟩,
       ⟨tsSeconds ⟨s2l "00", s2l "01", s2l "00"⟩, tsSeconds ⟨s2l "00", s2l "01", s2l "00"⟩ + 3, s2l "a"⟩] := rfl
  rw [parse_lrc, h1, tsSeconds_0100]
  have hs : sortLyrics [⟨1, 1 + 3, s2l "a"⟩, ⟨1, 1 + 3, s2l "a"⟩] =
      [⟨1, 1 + 3, s2l "a"⟩, ⟨1, 1 + 3, s2l "a"⟩] := by
    norm_num [sortLyrics, entryLE, List.insertionSort, List.orderedInsert]
  rw [hs]
  norm_num [setEnds, lastFix, fixLastEntry]

theorem parseConcreteTwenty :
    parse_lrc [s2l "[00:00.00]aaaaaaaaaaaaaaaaaaaa"] =
      [⟨0, 3, s2l "aaaaaaaaaaaaaaaaaaaa"⟩] := by
  have h1 : parseLines [] [s2l "[00:00.00]aaaaaaaaaaaaaaaaaaaa"] =
      [⟨tsSeconds ⟨s2l "00", s2l "00", s2l "00"⟩, tsSeconds ⟨s2l "00", s2l "00", s2l "00"⟩ + 3,
        s2l "aaaaaaaaaaaaaaaaaaaa"⟩] := rfl
  rw [parse_lrc, h1, tsSeconds_0000]
  have hs : sortLyrics [⟨0, 0 + 3, s2l "aaaaaaaaaaaaaaaaaaaa"⟩] =
      [⟨0, 0 + 3, s2l "aaaaaaaaaaaaaaaaaaaa"⟩] := rfl
  rw [hs]
  norm_num [setEnds, lastFix, fixLastEntry]

/-- C6 (amended): after the finalization pass of `parse_lrc`, every entry
satisfies `end >= start` (equality occurs when consecutive entries share the
same start, so the original strict claim fails; see the counterexample). -/
theorem end_ge_start_invariant (lines : List (List Char)) :
    ∀ e ∈ parse_lrc lines, e.start ≤ e.end_ := by
  intro e he
  unfold parse_lrc at he
  refine lastFix_start_le _ ?_ e he
  intro x hx
  refine setEnds_start_le _ (sortLyrics_sorted _) ?_ x hx
  intro y hy
  exact parseLines_placeholder lines [] (by simp) y ((sortLyrics_perm _).mem_iff.mp hy)

/-- Witness for C6 at the two-timestamp line. -/
theorem end_ge_start_invariant_witness :
    (⟨1, 5/2, s2l "hello"⟩ : Entry).start ≤ (⟨1, 5/2, s2l "hello"⟩ : Entry).end_ :=
  end_ge_start_invariant [s2l "[00:01.00]hello[00:02.50]"] ⟨1, 5/2, s2l "hello"⟩
    (by rw [parseConcreteTwoTs]; exact List.mem_cons_self _ _)

/-- Counterexample to C6 as stated: parsing a line carrying the same timestamp
twice yields a first entry with `end = start = 1`, so `end > start` fails. -/
theorem end_gt_start_cex :
    ¬ (∀ e ∈ parse_lrc [s2l "[00:01.00]a[00:01.00]"], e.start < e.end_) := by
  intro h
  have := h ⟨1, 1, s2l "a"⟩ (by rw [parseConcreteDup]; exact List.mem_cons_self _ _)
  simp at this

/-- C1 (amended): the finalization of `parse_lrc` always leaves the last
entry's end at its creation placeholder `start + 3.0`: the guard
`end <= start` of the estimation branch never holds, because the placeholder
already exceeds the start, so the text-length estimate
`max(2.0, len(text)*0.1)` is dead code. -/
theorem lastEntry_end_placeholder (lines : List (List Char)) (e : Entry)
    (h : (parse_lrc lines).getLast? = some e) : e.end_ = e.start + 3 := by
  unfold parse_lrc at h
  cases hl : (setEnds (sortLyrics (parseLines [] lines))).getLast? with
  | none =>
    rw [List.getLast?_eq_none_iff] at hl
    rw [hl] at h
    simp [lastFix] at h
  | some e' =>
    have h2 := lastFix_getLast? _ e' hl
    rw [h] at h2
    have he' : e' ∈ sortLyrics (parseLines [] lines) := by
      rw [setEnds_getLast?] at hl
      obtain ⟨hne, heq⟩ := List.mem_getLast?_eq_getLast (Option.mem_def.mpr hl)
      rw [heq]
      exact List.getLast_mem hne
    have hp : e'.end_ = e'.start + 3 :=
      parseLines_placeholder lines [] (by simp) e' ((sortLyrics_perm _).mem_iff.mp he')
    have hfix : fixLastEntry e' = e' := by
      unfold fixLastEntry
      rw [if_neg]
      rw [hp]
      intro hc
      linarith
    rw [hfix] at h2
    obtain rfl : e = e' := by injection h2
    exact hp

/-- Witness for C1 (amended) at a single entry with a 20-character text. -/
theorem lastEntry_end_placeholder_witness :
    (⟨0, 3, s2l "aaaaaaaaaaaaaaaaaaaa"⟩ : Entry).end_ =
      (⟨0, 3, s2l "aaaaaaaaaaaaaaaaaaaa"⟩ : Entry).start + 3 :=
  lastEntry_end_placeholder [s2l "[00:00.00]aaaaaaaaaaaaaaaaaaaa"]
    ⟨0, 3, s2l "aaaaaaaaaaaaaaaaaaaa"⟩ (by rw [parseConcreteTwenty]; rfl)

/-- Counterexample to C1 as stated: a last entry with a 20-character text and
no successor gets `end = start + 3.0`, not `end = start + max(2.0, 20*0.1) =
start + 2.0` as the claim predicts. -/
theorem lastEntry_estimation_cex :
    (parse_lrc [s2l "[00:00.00]aaaaaaaaaaaaaaaaaaaa"]).getLast? =
      some ⟨0, 3, s2l "aaaaaaaaaaaaaaaaaaaa"⟩ ∧
    (3 : ℚ) ≠ 0 + max 2 (((s2l "aaaaaaaaaaaaaaaaaaaa").length : ℚ) * 0.1) := by
  constructor
  · rw [parseConcreteTwenty]; rfl
  · have hl : ((s2l "aaaaaaaaaaaaaaaaaaaa").length : ℚ) = 20 := rfl
    rw [hl]
    norm_num

/-- C8: the line `[00:01.00]hello[00:02.50]` produces exactly two entries,
both with text `hello`, with starts `1.0` and `2.5`; in general a single
non-metadata line with `n` timestamps produces `n` entries, all sharing the
timestamp-stripped text. -/
theorem multi_timestamp_line_entries :
    parse_lrc [s2l "[00:01.00]hello[00:02.50]"] =
      [⟨1, 5/2, s2l "hello"⟩, ⟨5/2, 11/2, s2l "hello"⟩] ∧
    ∀ line : List Char, (pyStrip line).isEmpty = false → isMeta (pyStrip line) = false →
      (scanTs (pyStrip line)).1.isEmpty = false →
      (parse_lrc [line]).length = (scanTs (pyStrip line)).1.length ∧
      ∀ e ∈ parse_lrc [line], e.text = pyStrip (scanTs (pyStrip line)).2 := by
  refine ⟨parseConcreteTwoTs, ?_⟩
  intro line h1 h2 h3
  have hp : parseLines [] [line] =
      (scanTs (pyStrip line)).1.map
        (fun t => ⟨tsSeconds t, tsSeconds t + 3, pyStrip (scanTs (pyStrip line)).2⟩) := by
    rw [parseLines]
    dsimp only
    rw [if_neg (by rw [h1]; exact Bool.false_ne_true),
        if_neg (by rw [h2]; exact Bool.false_ne_true),
        if_neg (by rw [h3]; exact Bool.false_ne_true)]
    rw [parseLines]
    simp
  constructor
  · rw [parse_lrc, hp, lastFix_length, setEnds_length,
      (sortLyrics_perm _).length_eq, List.length_map]
  · intro e he
    rw [parse_lrc, hp] at he
    obtain ⟨x, hx, hsx, htx⟩ := lastFix_shape _ e he
    obtain ⟨y, hy, hsy, hty⟩ := setEnds_shape _ x hx
    have hym := (sortLyrics_perm _).mem_iff.mp hy
    obtain ⟨t, _, rfl⟩ := List.mem_map.mp hym
    rw [htx, hty]

/-- Witness for C8's general part at the two-timestamp line. -/
theorem multi_timestamp_line_witness :
    (parse_lrc [s2l "[00:01.00]hello[00:02.50]"]).length =
      (scanTs (pyStrip (s2l "[00:01.00]hello[00:02.50]"))).1.length ∧
    ∀ e ∈ parse_lrc [s2l "[00:01.00]hello[00:02.50]"],
      e.text = pyStrip (scanTs (pyStrip (s2l "[00:01.00]hello[00:02.50]"))).2 :=
  multi_timestamp_line_entries.2 (s2l "[00:01.00]hello[00:02.50]") rfl rfl rfl


theorem digitChar_isDigit : ∀ d : ℕ, (digitChar d).isDigit = true := by
  intro d
  unfold digitChar
  split <;> rfl

theorem digitChar_val : ∀ d : ℕ, d < 10 → (digitChar d).toNat - 48 = d := by
  intro d hd
  interval_cases d <;> rfl

theorem natDigitsAux_irrel : ∀ (f : ℕ) (n f' : ℕ), n < f → n < f' →
    natDigitsAux f n = natDigitsAux f' n := by
  intro f
  induction f with
  | zero => intro n f' h; omega
  | succ f ih =>
    intro n f' h h'
    cases f' with
    | zero => omega
    | succ f'' =>
      rw [natDigitsAux, natDigitsAux]
      by_cases h10 : n < 10
      · rw [if_pos h10, if_pos h10]
      · rw [if_neg h10, if_neg h10]
        have hd : n / 10 < n := Nat.div_lt_self (by omega) (by omega)
        rw [ih (n / 10) f'' (by omega) (by omega)]

theorem natDigits_eq (n : ℕ) :
    natDigits n = if n < 10 then [digitChar n] else natDigits (n / 10) ++ [digitChar (n % 10)] := by
  rw [natDigits, natDigitsAux]
  by_cases h10 : n < 10
  · rw [if_pos h10, if_pos h10]
  · rw [if_neg h10, if_neg h10, natDigits]
    have hd : n / 10 < n := Nat.div_lt_self (by omega) (by omega)
    rw [natDigitsAux_irrel n (n / 10) (n / 10 + 1) (by omega) (by omega)]

theorem natDigits_ne_nil (n : ℕ) : natDigits n ≠ [] := by
  rw [natDigits_eq]
  by_cases h10 : n < 10
  · rw [if_pos h10]; simp
  · rw [if_neg h10]; simp

theorem natDigits_all_digit (n : ℕ) : ∀ c ∈ natDigits n, c.isDigit = true := by
  induction n using Nat.strong_induction_on with
  | _ n ih =>
    rw [natDigits_eq]
    by_cases h10 : n < 10
    · rw [if_pos h10]
      intro c hc
      rw [List.mem_singleton] at hc
      rw [hc]
      exact digitChar_isDigit n
    · rw [if_neg h10]
      intro c hc
      rcases List.mem_append.mp hc with hc | hc
      · exact ih (n / 10) (Nat.div_lt_self (by omega) (by omega)) c hc
      · rw [List.mem_singleton] at hc
        rw [hc]
        exact digitChar_isDigit _

theorem digitsVal_append_singleton (a : List Char) (c : Char) :
    digitsVal (a ++ [c]) = 10 * digitsVal a + (c.toNat - 48) := by
  unfold digitsVal
  rw [List.foldl_append]
  rfl

theorem digitsVal_natDigits (n : ℕ) : digitsVal (natDigits n) = n := by
  induction n using Nat.strong_induction_on with
  | _ n ih =>
    rw [natDigits_eq]
    by_cases h10 : n < 10
    · rw [if_pos h10]
      show 10 * 0 + ((digitChar n).toNat - 48) = n
      rw [digitChar_val n h10]
      omega
    · rw [if_neg h10, digitsVal_append_singleton,
        ih (n / 10) (Nat.div_lt_self (by omega) (by omega)),
        digitChar_val (n % 10) (Nat.mod_lt _ (by omega))]
      omega

theorem natDigits_length_le_two (n : ℕ) (h : n < 100) : (natDigits n).length ≤ 2 := by
  rw [natDigits_eq]
  by_cases h10 : n < 10
  · rw [if_pos h10]; simp
  · rw [if_neg h10]
    have h2 : n / 10 < 10 := by omega
    rw [natDigits_eq, if_pos h2]
    simp

theorem digitsVal_pad2 (l : List Char) : digitsVal (pad2 l) = digitsVal l := by
  unfold pad2
  generalize 2 - l.length = k
  induction k with
  | zero => rfl
  | succ k ih =>
    rw [List.replicate_succ, List.cons_append]
    show digitsVal (List.replicate k '0' ++ l) = digitsVal l
    exact ih

theorem pad2_ne_nil (l : List Char) : pad2 l ≠ [] := by
  unfold pad2
  cases l with
  | nil => simp
  | cons c r => simp

theorem pad2_all_digit (l : List Char) (h : ∀ c ∈ l, c.isDigit = true) :
    ∀ c ∈ pad2 l, c.isDigit = true := by
  intro c hc
  rcases List.mem_append.mp hc with hc | hc
  · rw [List.eq_of_mem_replicate hc]
    rfl
  · exact h c hc

theorem pad2_length_two (l : List Char) (h1 : l ≠ []) (h2 : l.length ≤ 2) :
    (pad2 l).length = 2 := by
  have h0 : l.length ≠ 0 := fun hc => h1 (List.length_eq_zero.mp hc)
  simp [pad2]
  omega

theorem pyParseNat_pad2_natDigits (n : ℕ) : pyParseNat (pad2 (natDigits n)) = some n := by
  unfold pyParseNat
  rw [if_pos, digitsVal_pad2, digitsVal_natDigits]
  rw [Bool.and_eq_true, List.all_eq_true]
  refine ⟨?_, fun c hc => pad2_all_digit _ (natDigits_all_digit n) c hc⟩
  simp [List.isEmpty_iff]
  exact pad2_ne_nil _

theorem splitOnChar_of_not_mem (sep : Char) : ∀ a : List Char, sep ∉ a →
    splitOnChar sep a = [a]
  | [], _ => rfl
  | c :: rest, h => by
    rw [splitOnChar]
    rw [if_neg (fun hc : c = sep => h (hc ▸ List.mem_cons_self c rest))]
    rw [splitOnChar_of_not_mem sep rest (fun hc => h (List.mem_cons_of_mem c hc))]

theorem splitOnChar_append_cons (sep : Char) : ∀ (a b : List Char), sep ∉ a →
    splitOnChar sep (a ++ sep :: b) = a :: splitOnChar sep b
  | [], b, _ => by
    rw [List.nil_append, splitOnChar, if_pos rfl]
  | c :: rest, b, h => by
    rw [List.cons_append, splitOnChar]
    rw [if_neg (fun hc : c = sep => h (hc ▸ List.mem_cons_self c rest))]
    rw [splitOnChar_append_cons sep rest b (fun hc => h (List.mem_cons_of_mem c hc))]

theorem not_mem_of_all_digit (l : List Char) (h : ∀ c ∈ l, c.isDigit = true)
    (ch : Char) (hch : ch.isDigit = false) : ch ∉ l := by
  intro hc
  rw [h ch hc] at hch
  exact Bool.noConfusion hch

theorem digit_not_space (c : Char) (h : c.isDigit = true) : pyIsSpace c = false := by
  cases hp : pyIsSpace c with
  | false => rfl
  | true =>
    exfalso
    simp only [pyIsSpace, Bool.or_eq_true, beq_iff_eq] at hp
    rcases hp with ((((hc | hc) | hc) | hc) | hc) | hc <;> (subst hc; exact absurd h (by decide))

theorem digit_not_bracket (c : Char) (h : c.isDigit = true) :
    (c == '[' || c == ']') = false := by
  cases hp : (c == '[' || c == ']') with
  | false => rfl
  | true =>
    exfalso
    simp only [Bool.or_eq_true, beq_iff_eq] at hp
    rcases hp with hc | hc <;> (subst hc; exact absurd h (by decide))

theorem pyStripP_eq_self (p : Char → Bool) (l : List Char) (h : ∀ c ∈ l, p c = false) :
    pyStripP p l = l := by
  unfold pyStripP
  cases l with
  | nil => rfl
  | cons c rest =>
    rw [List.dropWhile_cons, if_neg (by rw [h c (List.mem_cons_self c rest)]; exact Bool.false_ne_true)]
    rw [List.rdropWhile_eq_self_iff]
    intro hne
    rw [h _ (List.getLast_mem hne)]
    exact Bool.false_ne_true

theorem lrc_parse_format (m s cs : ℤ) (hm : 0 ≤ m) (hs0 : 0 ≤ s) (_hs : s < 60)
    (hcs0 : 0 ≤ cs) (hcs : cs < 100) :
    lrc_time_to_seconds (formatTriple (m, s, cs)) =
      some ((m : ℚ) * 60 + (s : ℚ) + (cs : ℚ) / 100) := by
  have hMd : ∀ c ∈ pad2 (natDigits m.toNat), c.isDigit = true :=
    pad2_all_digit _ (natDigits_all_digit _)
  have hSd : ∀ c ∈ pad2 (natDigits s.toNat), c.isDigit = true :=
    pad2_all_digit _ (natDigits_all_digit _)
  have hCd : ∀ c ∈ pad2 (natDigits cs.toNat), c.isDigit = true :=
    pad2_all_digit _ (natDigits_all_digit _)
  set M := pad2 (natDigits m.toNat) with hM
  set S := pad2 (natDigits s.toNat) with hS
  set C := pad2 (natDigits cs.toNat) with hC
  have hF : formatTriple (m, s, cs) = M ++ ':' :: (S ++ '.' :: C) := rfl
  have hall : ∀ c ∈ M ++ ':' :: (S ++ '.' :: C), pyIsSpace c = false := by
    intro c hc
    rcases List.mem_append.mp hc with hc | hc
    · exact digit_not_space c (hMd c hc)
    · rcases List.mem_cons.mp hc with hc | hc
      · rw [hc]; rfl
      · rcases List.mem_append.mp hc with hc | hc
        · exact digit_not_space c (hSd c hc)
        · rcases List.mem_cons.mp hc with hc | hc
          · rw [hc]; rfl
          · exact digit_not_space c (hCd c hc)
  have hallB : ∀ c ∈ M ++ ':' :: (S ++ '.' :: C), (c == '[' || c == ']') = false := by
    intro c hc
    rcases List.mem_append.mp hc with hc | hc
    · exact digit_not_bracket c (hMd c hc)
    · rcases List.mem_cons.mp hc with hc | hc
      · rw [hc]; rfl
      · rcases List.mem_append.mp hc with hc | hc
        · exact digit_not_bracket c (hSd c hc)
        · rcases List.mem_cons.mp hc with hc | hc
          · rw [hc]; rfl
          · exact digit_not_bracket c (hCd c hc)
  have hmem : ':' ∈ M ++ ':' :: (S ++ '.' :: C) :=
    List.mem_append_right _ (List.mem_cons_self _ _)
  have hnc : (':' : Char) ∉ S ++ '.' :: C := by
    intro hc
    rcases List.mem_append.mp hc with hc | hc
    · exact not_mem_of_all_digit S hSd ':' rfl hc
    · rcases List.mem_cons.mp hc with hc | hc
      · exact absurd hc (by decide)
      · exact not_mem_of_all_digit C hCd ':' rfl hc
  have hsplit : splitOnChar ':' (M ++ ':' :: (S ++ '.' :: C)) = [M, S ++ '.' :: C] := by
    rw [splitOnChar_append_cons ':' M _ (not_mem_of_all_digit M hMd ':' rfl)]
    rw [splitOnChar_of_not_mem ':' _ hnc]
  have hmem2 : '.' ∈ S ++ '.' :: C := List.mem_append_right _ (List.mem_cons_self _ _)
  have hsplit2 : splitOnChar '.' (S ++ '.' :: C) = [S, C] := by
    rw [splitOnChar_append_cons '.' S _ (not_mem_of_all_digit S hSd '.' rfl)]
    rw [splitOnChar_of_not_mem '.' _ (not_mem_of_all_digit C hCd '.' rfl)]
  have hCl : C.length = 2 :=
    pad2_length_two _ (natDigits_ne_nil _) (natDigits_length_le_two _ (by omega))
  have hPM : pyParseNat M = some m.toNat := pyParseNat_pad2_natDigits m.toNat
  have hPS : pyParseNat S = some s.toNat := pyParseNat_pad2_natDigits s.toNat
  have hPC : pyParseNat C = some cs.toNat := pyParseNat_pad2_natDigits cs.toNat
  rw [hF]
  unfold lrc_time_to_seconds
  rw [show pyStrip (M ++ ':' :: (S ++ '.' :: C)) = M ++ ':' :: (S ++ '.' :: C) from
    pyStripP_eq_self pyIsSpace _ hall]
  rw [show stripBrackets (M ++ ':' :: (S ++ '.' :: C)) = M ++ ':' :: (S ++ '.' :: C) from
    pyStripP_eq_self _ _ hallB]
  rw [if_pos hmem, hsplit]
  dsimp only
  rw [hPM]
  dsimp only
  rw [if_pos hmem2, hsplit2]
  dsimp only
  rw [hPS, hPC]
  dsimp only
  rw [if_pos hCl]
  congr 1
  have cm : ((m.toNat : ℕ) : ℚ) = (m : ℚ) := by
    rw [← Int.cast_natCast, Int.toNat_of_nonneg hm]
  have cs' : ((s.toNat : ℕ) : ℚ) = (s : ℚ) := by
    rw [← Int.cast_natCast, Int.toNat_of_nonneg hs0]
  have ccs : ((cs.toNat : ℕ) : ℚ) = (cs : ℚ) := by
    rw [← Int.cast_natCast, Int.toNat_of_nonneg hcs0]
  rw [cm, cs', ccs]

theorem roundHalfEven_abs_le (q : ℚ) : |((roundHalfEven q : ℤ) : ℚ) - q| ≤ 1/2 := by
  unfold roundHalfEven
  have h0 : (⌊q⌋ : ℚ) ≤ q := Int.floor_le q
  have h1 : q < ⌊q⌋ + 1 := Int.lt_floor_add_one q
  dsimp only
  split_ifs with c1 c2 c3 <;> rw [abs_le] <;> constructor <;> push_cast <;> linarith

theorem lrcTriple_value (x : ℚ) (hx : 0 ≤ x) :
    0 ≤ (lrcTriple x).1 ∧ 0 ≤ (lrcTriple x).2.1 ∧ (lrcTriple x).2.1 < 60 ∧
    0 ≤ (lrcTriple x).2.2 ∧ (lrcTriple x).2.2 < 100 ∧
    ((lrcTriple x).1 : ℚ) * 60 + ((lrcTriple x).2.1 : ℚ) + ((lrcTriple x).2.2 : ℚ) / 100 =
      (⌊x⌋ : ℚ) + ((roundHalfEven ((x - (⌊x⌋ : ℚ)) * 100) : ℤ) : ℚ) / 100 := by
  have hfl : (⌊x⌋ : ℚ) ≤ x := Int.floor_le x
  have hfu : x < ⌊x⌋ + 1 := Int.lt_floor_add_one x
  have hdl : (⌊x / 60⌋ : ℚ) ≤ x / 60 := Int.floor_le _
  have hdu : x / 60 < ⌊x / 60⌋ + 1 := Int.lt_floor_add_one _
  have h60l : 60 * (⌊x / 60⌋ : ℚ) ≤ x := by linarith
  have h60u : x < 60 * (⌊x / 60⌋ : ℚ) + 60 := by linarith
  have hpyx : pyInt x = ⌊x⌋ := by
    unfold pyInt
    rw [if_neg (not_lt.mpr hx)]
  have hpymod : pyInt (pyMod x 60) = ⌊x⌋ - 60 * ⌊x / 60⌋ := by
    unfold pyInt pyMod
    rw [if_neg (not_lt.mpr (by linarith))]
    rw [show x - 60 * (⌊x / 60⌋ : ℚ) = x - ((60 * ⌊x / 60⌋ : ℤ) : ℚ) by push_cast; ring]
    rw [Int.floor_sub_int]
  have hs0a : (0 : ℤ) ≤ ⌊x⌋ - 60 * ⌊x / 60⌋ := by
    have : (60 * ⌊x / 60⌋ : ℤ) ≤ ⌊x⌋ := by
      rw [Int.le_floor]
      push_cast
      linarith
    omega
  have hs0b : ⌊x⌋ - 60 * ⌊x / 60⌋ < 60 := by
    have : ⌊x⌋ < 60 * ⌊x / 60⌋ + 60 := by
      rw [show (60 * ⌊x / 60⌋ + 60 : ℤ) = 60 * (⌊x / 60⌋ + 1) by ring, Int.floor_lt]
      push_cast
      linarith
    omega
  have hm0 : (0 : ℤ) ≤ ⌊x / 60⌋ := Int.floor_nonneg.mpr (by positivity)
  have hy0 : (0 : ℚ) ≤ (x - (⌊x⌋ : ℚ)) * 100 := by linarith
  have hy1 : (x - (⌊x⌋ : ℚ)) * 100 < 100 := by linarith
  have habs := roundHalfEven_abs_le ((x - (⌊x⌋ : ℚ)) * 100)
  rw [abs_le] at habs
  have hc0a : (0 : ℤ) ≤ roundHalfEven ((x - (⌊x⌋ : ℚ)) * 100) := by
    by_contra hneg
    push_neg at hneg
    have : ((roundHalfEven ((x - (⌊x⌋ : ℚ)) * 100) : ℤ) : ℚ) ≤ -1 := by
      exact_mod_cast Int.le_of_lt_add_one (by omega : roundHalfEven ((x - (⌊x⌋ : ℚ)) * 100) < -1 + 1)
    linarith [habs.1]
  have hc0b : roundHalfEven ((x - (⌊x⌋ : ℚ)) * 100) ≤ 100 := by
    by_contra hbig
    push_neg at hbig
    have : (101 : ℚ) ≤ ((roundHalfEven ((x - (⌊x⌋ : ℚ)) * 100) : ℤ) : ℚ) := by
      exact_mod_cast (by omega : (101 : ℤ) ≤ roundHalfEven ((x - (⌊x⌋ : ℚ)) * 100))
    linarith [habs.2]
  unfold lrcTriple
  rw [if_neg (not_lt.mpr hx)]
  dsimp only
  rw [hpyx, hpymod]
  split_ifs with hC hS
  all_goals dsimp only
  · refine ⟨by omega, by norm_num, by norm_num, by norm_num, by norm_num, ?_⟩
    rw [hC]
    push_cast
    have : (⌊x⌋ : ℚ) - 60 * (⌊x / 60⌋ : ℚ) + 1 = 60 := by exact_mod_cast congrArg (fun z : ℤ => (z : ℚ)) hS
    linarith
  · refine ⟨by omega, by omega, by omega, by norm_num, by norm_num, ?_⟩
    rw [hC]
    push_cast
    ring
  · refine ⟨by omega, by omega, by omega, by omega, by omega, ?_⟩
    push_cast
    ring

theorem lrc_roundtrip_helper (x : ℚ) (hx : 0 ≤ x) :
    lrc_time_to_seconds (seconds_to_lrc_time x) =
      some (((lrcTriple x).1 : ℚ) * 60 + ((lrcTriple x).2.1 : ℚ) + ((lrcTriple x).2.2 : ℚ) / 100) := by
  obtain ⟨h1, h2, h3, h4, h5, _⟩ := lrcTriple_value x hx
  have := lrc_parse_format (lrcTriple x).1 (lrcTriple x).2.1 (lrcTriple x).2.2 h1 h2 h3 h4 h5
  rw [show ((lrcTriple x).1, (lrcTriple x).2.1, (lrcTriple x).2.2) = lrcTriple x from rfl] at this
  exact this

/-- C2: for every `x >= 0`, parsing the formatted timestamp recovers `x` to
within 0.01 seconds: `lrc_time_to_seconds (seconds_to_lrc_time x)` succeeds
with a value `v` such that `|v - x| <= 0.01`. -/
theorem lrc_roundtrip_within_centisecond (x : ℚ) (hx : 0 ≤ x) :
    ∃ v, lrc_time_to_seconds (seconds_to_lrc_time x) = some v ∧ |v - x| ≤ 0.01 := by
  obtain ⟨h1, h2, h3, h4, h5, hval⟩ := lrcTriple_value x hx
  refine ⟨_, lrc_roundtrip_helper x hx, ?_⟩
  rw [hval]
  have habs := roundHalfEven_abs_le ((x - (⌊x⌋ : ℚ)) * 100)
  rw [abs_le] at habs ⊢
  constructor <;> linarith [habs.1, habs.2]

/-- Witness for C2 at `x = 61.237`. -/
theorem lrc_roundtrip_witness :
    (0 : ℚ) ≤ 61.237 ∧
    ∃ v, lrc_time_to_seconds (seconds_to_lrc_time (61.237 : ℚ)) = some v ∧
      |v - (61.237 : ℚ)| ≤ 0.01 :=
  ⟨by norm_num, lrc_roundtrip_within_centisecond (61.237 : ℚ) (by norm_num)⟩
